import Mathlib

/-! Verification of the rime-reader text-to-speech pipeline.

The definitions below are a shallow embedding of the Python sources
`rime.py`, `rime_reader.py` and `rime_tts.py`.  Python strings are
modelled as `List Char` (`Str`), raw PCM byte buffers as `List ℕ`
(`Buf`), Python floats as `ℚ`, and the remote synthesis call as an
abstract function returning `Except` (network success or failure).
`rime.py` is the embedding's reference file; `rime_reader.py` is its
document-mode subset and `rime_tts.py` differs only in defaults, so the
claims common to them are settled on this single embedding.
-/

abbrev Str := List Char

abbrev Buf := List ℕ

/-- ASCII whitespace recognised by Python's `str.split()` / `str.strip()`
(the sources are ASCII; unicode spaces are out of scope of the model). -/
def pyIsSpace (c : Char) : Bool :=
  c == ' ' || c == '\t' || c == '\n' || c == '\r' || c == '\x0b' || c == '\x0c'

/-- Helper for `splitWs`: the accumulated (reversed) current word. -/
def splitWsAux : Str → Str → List Str
  | acc, [] => if acc = [] then [] else [acc.reverse]
  | acc, c :: t =>
    if pyIsSpace c then
      if acc = [] then splitWsAux [] t else acc.reverse :: splitWsAux [] t
    else
      splitWsAux (c :: acc) t

/-- Python `text.split()`: split on runs of whitespace, no empty words. -/
def splitWs (s : Str) : List Str := splitWsAux [] s

/-- Python `" ".join(words)`. -/
def joinSp : List Str → Str
  | [] => []
  | [w] => w
  | w :: ws => w ++ ' ' :: joinSp ws

/-- The `" ".join(text.split())` — whitespace normalisation (rime.py line 24). -/
def normalizeWs (s : Str) : Str := joinSp (splitWs s)

/-- Python `str.replace` specialised to a two-character pattern
(left-to-right, non-overlapping), as used with `"! "` and `"? "`. -/
def replace2 (p₁ p₂ : Char) (rep : Str) : Str → Str
  | [] => []
  | [c] => [c]
  | c₁ :: c₂ :: t =>
    if c₁ = p₁ ∧ c₂ = p₂ then rep ++ replace2 p₁ p₂ rep t
    else c₁ :: replace2 p₁ p₂ rep (c₂ :: t)

/-- Prepend a character to the first fragment of a split result. -/
def consHead (c : Char) : List Str → List Str
  | [] => [[c]]
  | f :: fs => (c :: f) :: fs

/-- Python `str.split(sep)` for the two-character separator `".\n"`:
splits at every (left-to-right, non-overlapping) occurrence, keeping
empty fragments. -/
def split2 (s₁ s₂ : Char) : Str → List Str
  | [] => [[]]
  | [c] => [[c]]
  | c₁ :: c₂ :: t =>
    if c₁ = s₁ ∧ c₂ = s₂ then [] :: split2 s₁ s₂ t
    else consHead c₁ (split2 s₁ s₂ (c₂ :: t))

/-- Python `str.strip()`. -/
def pyStrip (s : Str) : Str :=
  ((s.dropWhile pyIsSpace).reverse.dropWhile pyIsSpace).reverse

/-- Python `s.endswith((".", "!", "?"))` (rime.py line 30). -/
def endsTerm (s : Str) : Bool :=
  match s.getLast? with
  | some c => c == '.' || c == '!' || c == '?'
  | none => false

/-- The `s if s.endswith((".", "!", "?")) else s + "."` (rime.py line 30). -/
def addTerm (s : Str) : Str := if endsTerm s then s else s ++ ['.']

/-- The sentence list built by `chunk_text` (rime.py lines 24-30):
normalise whitespace, replace `"! "` and `"? "` by `".\n"`, split on
`".\n"`, strip each fragment, drop empties, re-terminate. -/
def sentences (text : Str) : List Str :=
  (split2 '.' '\n'
      (replace2 '?' ' ' ['.', '\n'] (replace2 '!' ' ' ['.', '\n'] (normalizeWs text)))).filterMap
    fun raw => if pyStrip raw = [] then none else some (addTerm (pyStrip raw))

/-- The greedy packing loop of `chunk_text` (rime.py lines 32-44), with
the accumulator `cur` (Python `current`) and counter `curLen`
(Python `current_len`) made explicit. -/
def packLoop (size : ℕ) : List Str → ℕ → List Str → List Str
  | cur, _, [] => if cur = [] then [] else [joinSp cur]
  | cur, curLen, s :: rest =>
    if curLen + s.length > size ∧ cur ≠ [] then
      joinSp cur :: packLoop size [s] s.length rest
    else
      packLoop size (cur ++ [s]) (curLen + s.length + 1) rest

/-- The `CHUNK_SIZE = 400` (rime.py line 19). -/
def CHUNK_SIZE : ℕ := 400

/-- The `chunk_text` (rime.py lines 22-45 = rime_reader.py lines 20-48). -/
def chunk_text (text : Str) (size : ℕ) : List Str :=
  packLoop size [] 0 (sentences text)

/-- The `SAMPLE_RATE = 48000` (rime.py line 18). -/
def SAMPLE_RATE : ℕ := 48000

/-- Python `int(SAMPLE_RATE * seconds)`: truncation toward zero of the
rational number `48000 * seconds`.  It is computed on the numerator
(`Int.tdiv` truncates toward zero and the denominator is positive) so
that the definition reduces inside the kernel; `silenceSamples_eq_floor`
below identifies it with `⌊48000 * seconds⌋` for `seconds ≥ 0`. -/
def silenceSamples (seconds : ℚ) : ℤ :=
  ((SAMPLE_RATE : ℤ) * seconds.num).tdiv (seconds.den : ℤ)

/-- The `generate_silence` (rime.py lines 74-76): `b"\x00\x00" * int(SAMPLE_RATE * seconds)`,
i.e. the two-byte zero sample repeated `int(48000 * seconds)` times. -/
def generate_silence (seconds : ℚ) : Buf :=
  (List.replicate (silenceSamples seconds).toNat ([0, 0] : Buf)).flatten

/-- One record of the `--segments` JSON list.  Every field is optional:
`seg.get(key, default)` falls back to the CLI-level default.  `text`
models `seg.get("text", "")` via `Option` so that a missing key and an
explicit empty string can be distinguished in statements. -/
structure Segment where
  text : Option Str
  voice : Option Str
  lang : Option Str
  speed : Option ℚ
deriving DecidableEq

/-- The `seg.get("text", "")` (rime.py line 149). -/
def segText (seg : Segment) : Str := seg.text.getD []

/-- The `seg.get("voice", args.voice)` (rime.py line 152). -/
def resolveVoice (seg : Segment) (d : Str) : Str := seg.voice.getD d

/-- The `seg.get("lang", args.lang)` (rime.py line 153). -/
def resolveLang (seg : Segment) (d : Option Str) : Option Str :=
  match seg.lang with
  | some l => some l
  | none => d

/-- The `seg.get("speed", args.speed)` (rime.py line 154). -/
def resolveSpeed (seg : Segment) (d : ℚ) : ℚ := seg.speed.getD d

/-- The arguments of one `synthesize` call, i.e. one HTTP request to the
TTS endpoint (rime.py lines 48-71; the network itself is abstract). -/
structure SynthCall where
  text : Str
  voice : Str
  speed : ℚ
  lang : Option Str
deriving DecidableEq

/-- The abstract remote TTS service: maps the request arguments to raw
PCM bytes, or to an error message when the call raises. -/
abbrev SynthFn := Str → Str → ℚ → Option Str → Except Str Buf

/-- The multi-voice segment loop of `main` (rime.py lines 148-162),
parameterised over the synthesis oracle `sf` and the CLI defaults.
`i` is the `enumerate` counter and `total` is `len(segments)`.
Returns the loop outcome — the assembled PCM on success, or
`(index, resolved voice, message)` of the first failing call — paired
with the list of synthesis requests actually issued. -/
def multiLoop (sf : SynthFn) (dv : Str) (dsp : ℚ) (dlg : Option Str) (sil : Buf)
    (total : ℕ) : ℕ → List Segment → Except (ℕ × Str × Str) Buf × List SynthCall
  | _, [] => (.ok [], [])
  | i, seg :: rest =>
    if segText seg = [] then
      multiLoop sf dv dsp dlg sil total (i + 1) rest
    else
      let voice := resolveVoice seg dv
      let speed := resolveSpeed seg dsp
      let lang := resolveLang seg dlg
      match sf (segText seg) voice speed lang with
      | .error e => (.error (i, voice, e), [⟨segText seg, voice, speed, lang⟩])
      | .ok pcm =>
        ((multiLoop sf dv dsp dlg sil total (i + 1) rest).1.map
            (fun buf => pcm ++ (if i < total - 1 then sil else []) ++ buf),
          ⟨segText seg, voice, speed, lang⟩ ::
            (multiLoop sf dv dsp dlg sil total (i + 1) rest).2)

/-- The document-mode chunk loop of `main` (rime.py lines 177-185 =
rime_reader.py lines 146-154), in the same style as `multiLoop`. -/
def docLoop (sf : SynthFn) (voice : Str) (speed : ℚ) (lang : Option Str) (sil : Buf)
    (total : ℕ) : ℕ → List Str → Except (ℕ × Str) Buf × List SynthCall
  | _, [] => (.ok [], [])
  | i, chunk :: rest =>
    match sf chunk voice speed lang with
    | .error e => (.error (i, e), [⟨chunk, voice, speed, lang⟩])
    | .ok pcm =>
      ((docLoop sf voice speed lang sil total (i + 1) rest).1.map
          (fun buf => pcm ++ (if i < total - 1 then sil else []) ++ buf),
        ⟨chunk, voice, speed, lang⟩ ::
          (docLoop sf voice speed lang sil total (i + 1) rest).2)

/-- The `f"Error on segment {i} (voice={voice}): {e}"` (rime.py line 161). -/
def segErrMsg (i : ℕ) (voice : Str) (e : Str) : Str :=
  "Error on segment ".toList ++ Nat.toDigits 10 i ++ " (voice=".toList ++ voice
    ++ "): ".toList ++ e

/-- The `f"Error on chunk {i}: {e}"` (rime.py line 184). -/
def chunkErrMsg (i : ℕ) (e : Str) : Str :=
  "Error on chunk ".toList ++ Nat.toDigits 10 i ++ ": ".toList ++ e

/-- The `f"Error calling Rime API: {e}"` (rime.py line 194). -/
def apiErrMsg (e : Str) : Str := "Error calling Rime API: ".toList ++ e

/-- The message "Error: RIME_API_KEY not set" (rime.py line 132). -/
def keyErrMsg : Str := "Error: RIME_API_KEY not set".toList

/-- The message "Error: document is empty" (rime.py line 173). -/
def emptyDocMsg : Str := "Error: document is empty".toList

/-- The mode selected by the mutually exclusive CLI arguments, after
argument parsing and (for `--segments`) JSON parsing; `document` holds
the file/stdin content. -/
inductive Mode where
  | segments (segs : List Segment)
  | document (raw : Str)
  | single (text : Str)
deriving DecidableEq

/-- The parsed CLI arguments of rime.py relevant to the pipeline. -/
structure Args where
  mode : Mode
  voice : Str
  speed : ℚ
  lang : Option Str
  pause : ℚ
deriving DecidableEq

/-- The observable outcome of one invocation of `main` (rime.py lines
107-198): process exit code, the diagnostic printed to stderr (if any),
the synthesis requests issued, and the PCM buffer handed to the
transcoder `pcm_to_ogg` (`none` when the transcoder is never invoked,
so no output file is created).  `exitCode = 0` models the success path
(the external encoder itself is out of scope). -/
structure RunResult where
  exitCode : ℕ
  stderr : Option Str
  synthCalls : List SynthCall
  transcoded : Option Buf
deriving DecidableEq

/-- The `"RIME_API_KEY"`. -/
def apiKeyName : Str := "RIME_API_KEY".toList

/-- The `main` of rime.py (lines 107-198), from the point where the mode is
known: check the credential (`os.environ.get("RIME_API_KEY")`, lines
130-133), build the silence buffer (line 137), then run the selected
mode's loop and, if it succeeded, hand the assembled buffer to the
transcoder (line 197). `env` is the process environment. -/
def runRime (env : Str → Option Str) (sf : SynthFn) (args : Args) : RunResult :=
  if (env apiKeyName).getD [] = [] then
    ⟨1, some keyErrMsg, [], none⟩
  else
    let sil := generate_silence args.pause
    match args.mode with
    | .segments segs =>
      match multiLoop sf args.voice args.speed args.lang sil segs.length 0 segs with
      | (.error (i, v, e), calls) => ⟨1, some (segErrMsg i v e), calls, none⟩
      | (.ok buf, calls) => ⟨0, none, calls, some buf⟩
    | .document raw =>
      let text := pyStrip raw
      if text = [] then ⟨1, some emptyDocMsg, [], none⟩
      else
        let chunks := chunk_text text CHUNK_SIZE
        match docLoop sf args.voice args.speed args.lang sil chunks.length 0 chunks with
        | (.error (i, e), calls) => ⟨1, some (chunkErrMsg i e), calls, none⟩
        | (.ok buf, calls) => ⟨0, none, calls, some buf⟩
    | .single text =>
      match sf text args.voice args.speed args.lang with
      | .error e => ⟨1, some (apiErrMsg e), [⟨text, args.voice, args.speed, args.lang⟩], none⟩
      | .ok pcm => ⟨0, none, [⟨text, args.voice, args.speed, args.lang⟩], some pcm⟩

/-- The segments of a segment list whose `text` is non-empty — exactly
those the loop synthesizes (the others are skipped by `continue`). -/
def unitSegs (segs : List Segment) : List Segment :=
  segs.filter fun s => !(segText s).isEmpty

/-- The trailing silence produced by the multi-segment loop: the gap
condition `i < len(segments) - 1` is checked against the original index,
so when the final list position holds a skipped (empty-text) segment the
last synthesized unit still receives a gap after it. -/
def trailGap (sil : Buf) (segs : List Segment) : Buf :=
  match segs.getLast? with
  | none => []
  | some s => if segText s = [] ∧ unitSegs segs ≠ [] then sil else []

/-- Structural closed form of the success-path buffer of the
multi-segment loop: each non-skipped segment contributes its PCM, plus
the silence buffer when it is not at the last original position
(`rest ≠ []` is exactly `i < len(segments) - 1` there). -/
def assembleM (sil : Buf) (pcmOf : Segment → Buf) : List Segment → Buf
  | [] => []
  | [seg] => if segText seg = [] then [] else pcmOf seg
  | seg :: rest =>
    (if segText seg = [] then [] else pcmOf seg ++ sil) ++ assembleM sil pcmOf rest

/-- Test oracle: synthesis succeeds and returns the one-byte buffer
holding the text's length. -/
def sfLen : SynthFn := fun t _ _ _ => .ok [t.length]

/-- Test oracle: every synthesis call fails with message "boom". -/
def sfBoom : SynthFn := fun _ _ _ _ => .error "boom".toList

/-- Test environment that defines every variable (so the API key check
passes). -/
def envK : Str → Option Str := fun _ => some ['k']

/-- The segment list of the C1 scenario:
`[{"text":"Hi","voice":"a"},{"text":"","voice":"b"},{"text":"Bye","voice":"c"}]`. -/
def segsC1 : List Segment :=
  [⟨some ['H', 'i'], some ['a'], none, none⟩,
   ⟨some [], some ['b'], none, none⟩,
   ⟨some ['B', 'y', 'e'], some ['c'], none, none⟩]

/-- A segment list whose final position is a skipped (empty-text)
segment: `[{"text":"Hi","voice":"a"},{"text":"Bye","voice":"c"},{"text":"","voice":"b"}]`. -/
def segsTrailing : List Segment :=
  [⟨some ['H', 'i'], some ['a'], none, none⟩,
   ⟨some ['B', 'y', 'e'], some ['c'], none, none⟩,
   ⟨some [], some ['b'], none, none⟩]

/-- Generic two-step induction on lists, matching the recursion pattern
of `replace2`, `split2` and `assembleM`. -/
theorem twoStepInduction {α : Type} {P : List α → Prop} (h0 : P [])
    (h1 : ∀ c, P [c])
    (h2 : ∀ c₁ c₂ t, P t → P (c₂ :: t) → P (c₁ :: c₂ :: t)) : ∀ s, P s
  | [] => h0
  | [c] => h1 c
  | c₁ :: c₂ :: t =>
    h2 c₁ c₂ t (twoStepInduction h0 h1 h2 t) (twoStepInduction h0 h1 h2 (c₂ :: t))

/-- The `b"\x00\x00" * n` is `2 * n` zero bytes. -/
theorem replicate_pair_flatten (n : ℕ) :
    (List.replicate n ([0, 0] : Buf)).flatten = List.replicate (2 * n) (0 : ℕ) := by
  induction n with
  | zero => rfl
  | succ k ih =>
    rw [List.replicate_succ, List.flatten_cons, ih, Nat.mul_succ, Nat.add_comm (2 * k) 2,
      List.replicate_add]
    rfl

/-- The truncated sample count agrees with `⌊48000 * seconds⌋` for
non-negative durations. -/
theorem silenceSamples_eq_floor (q : ℚ) (h : 0 ≤ q) :
    silenceSamples q = ⌊(48000 : ℚ) * q⌋ := by
  have hnum : 0 ≤ q.num := Rat.num_nonneg.mpr h
  have ha : (0 : ℤ) ≤ (SAMPLE_RATE : ℤ) * q.num := by
    have : (0 : ℤ) ≤ (SAMPLE_RATE : ℤ) := by norm_num [SAMPLE_RATE]
    exact mul_nonneg this hnum
  have hb : (0 : ℤ) ≤ (q.den : ℤ) := Int.ofNat_nonneg q.den
  rw [silenceSamples, Int.tdiv_eq_ediv ha hb]
  have : ((SAMPLE_RATE : ℤ) * q.num) / (q.den : ℤ) =
      ⌊(((SAMPLE_RATE : ℤ) * q.num : ℤ) : ℚ) / ((q.den : ℕ) : ℚ)⌋ :=
    (Rat.floor_intCast_div_natCast _ _).symm
  rw [this]
  congr 1
  push_cast [SAMPLE_RATE]
  rw [mul_div_assoc, Rat.num_div_den]

/-- Claim C5: for every `seconds ≥ 0`, `generate_silence seconds` is a
buffer of exactly `2 * floor(48000 * seconds)` bytes, every byte zero
(and, being a function of its argument, it is deterministic and
side-effect free). -/
theorem c5_generate_silence_length_zero (seconds : ℚ) (h : 0 ≤ seconds) :
    (generate_silence seconds).length = 2 * (⌊(48000 : ℚ) * seconds⌋).toNat ∧
      ∀ b ∈ generate_silence seconds, b = 0 := by
  constructor
  · rw [generate_silence, replicate_pair_flatten, List.length_replicate,
      silenceSamples_eq_floor seconds h]
  · intro b hb
    rw [generate_silence, replicate_pair_flatten] at hb
    exact List.eq_of_mem_replicate hb

/-- Witness for C5 at `seconds = 1/16000`. -/
theorem c5_generate_silence_length_zero_witness :
    0 ≤ mkRat 1 16000 ∧
      ((generate_silence (mkRat 1 16000)).length =
          2 * (⌊(48000 : ℚ) * mkRat 1 16000⌋).toNat ∧
        ∀ b ∈ generate_silence (mkRat 1 16000), b = 0) :=
  ⟨by decide, c5_generate_silence_length_zero (mkRat 1 16000) (by decide)⟩

/-- Claim C8: when the credential environment variable is unset or empty,
`main` prints the diagnostic and exits 1 before doing anything else: no
synthesis request is issued and the transcoder is never invoked. -/
theorem c8_missing_api_key_aborts (env : Str → Option Str) (sf : SynthFn) (args : Args)
    (h : env apiKeyName = none ∨ env apiKeyName = some []) :
    runRime env sf args = ⟨1, some keyErrMsg, [], none⟩ := by
  have hk : (env apiKeyName).getD [] = [] := by
    rcases h with h | h <;> rw [h] <;> rfl
  rw [runRime, if_pos hk]

/-- Witness for C8: an environment with no `RIME_API_KEY`. -/
theorem c8_missing_api_key_aborts_witness :
    runRime (fun _ => none) sfLen ⟨.single ['x'], ['v'], 1, none, 0⟩ =
      ⟨1, some keyErrMsg, [], none⟩ :=
  c8_missing_api_key_aborts (fun _ => none) sfLen ⟨.single ['x'], ['v'], 1, none, 0⟩
    (Or.inl rfl)

/-- Claim C4 is a code bug: with budget 6, the sentences of
`"aaaaaa! bb! cc!"` are `["aaaaaa.", "bb.", "cc!"]`, and the loop emits
the chunk `"bb. cc!"` — seven characters, over the budget, and not a
single sentence.  (After closing a chunk the code re-initialises
`current_len = len(sentence)` without the `+ 1` it adds on appends, so
chunks after the first may reach `size + 1` characters.) -/
theorem c4_budget_off_by_one_eval :
    sentences "aaaaaa! bb! cc!".toList = ["aaaaaa.".toList, "bb.".toList, "cc!".toList] ∧
      chunk_text "aaaaaa! bb! cc!".toList 6 = ["aaaaaa.".toList, "bb. cc!".toList] ∧
      ("bb. cc!".toList).length = 7 ∧
      "bb. cc!".toList ∉ sentences "aaaaaa! bb! cc!".toList := by decide

/-- Claim C3 is a code bug: `". "` is not treated as a sentence boundary
(only `"! "` and `"? "` are replaced by the `".\n"` sentinel that the
code splits on), so `"aa. bb"` stays one sentence and one chunk even
with budget 3, while `"aa! bb"` is split (and its `!` terminator is
rewritten to `.`). -/
theorem c3_period_space_not_boundary_eval :
    sentences "aa. bb".toList = ["aa. bb.".toList] ∧
      chunk_text "aa. bb".toList 3 = ["aa. bb.".toList] ∧
      sentences "aa! bb".toList = ["aa.".toList, "bb.".toList] ∧
      chunk_text "aa! bb".toList 3 = ["aa.".toList, "bb.".toList] := by decide

/-- Claim C1 (amended): on the segment list
`[{"text":"Hi","voice":"a"},{"text":"","voice":"b"},{"text":"Bye","voice":"c"}]`
exactly two synthesis calls are made (for "Hi" with voice "a" and "Bye"
with voice "c"), and exactly ONE silence gap is appended before
transcoding — after original index 0.  The skipped segment at index 1
inserts no gap, because the loop `continue`s before the gap logic. -/
theorem c1_multi_segment_gap_trace (env : Str → Option Str) (sf : SynthFn)
    (dv : Str) (sp : ℚ) (lg : Option Str) (pause : ℚ) (bHi bBye : Buf)
    (hk : ¬(env apiKeyName).getD [] = [])
    (hHi : sf ['H', 'i'] ['a'] sp lg = .ok bHi)
    (hBye : sf ['B', 'y', 'e'] ['c'] sp lg = .ok bBye) :
    runRime env sf ⟨.segments segsC1, dv, sp, lg, pause⟩ =
      ⟨0, none, [⟨['H', 'i'], ['a'], sp, lg⟩, ⟨['B', 'y', 'e'], ['c'], sp, lg⟩],
        some (bHi ++ generate_silence pause ++ bBye)⟩ := by
  rw [runRime, if_neg hk]
  simp only [segsC1, multiLoop, segText, resolveVoice, resolveSpeed, resolveLang,
    Option.getD, hHi, hBye]
  simp [Except.map]

/-- Counterexample to claim C1 as stated: on its exact segment list the
program issues two synthesis calls, but appends exactly ONE silence gap
(the buffer is `pcm("Hi") ++ silence ++ pcm("Bye")`), not the claimed
two — the two-gap buffer shape is refuted.  (Oracle: synthesis returns
`[len(text)]`; pause `1/48000` s, so the gap is the two bytes `[0,0]`.) -/
theorem c1_two_gaps_refuted :
    (runRime envK sfLen ⟨.segments segsC1, ['v'], 1, none, mkRat 1 48000⟩).synthCalls.length
        = 2 ∧
      (runRime envK sfLen ⟨.segments segsC1, ['v'], 1, none, mkRat 1 48000⟩).transcoded =
        some ([2] ++ [0, 0] ++ [3]) ∧
      (runRime envK sfLen ⟨.segments segsC1, ['v'], 1, none, mkRat 1 48000⟩).transcoded ≠
        some ([2] ++ [0, 0] ++ [0, 0] ++ [3]) := by decide

/-- Witness for C1 (amended) with the `sfLen` oracle and a `1/48000` s
pause. -/
theorem c1_multi_segment_gap_trace_witness :
    runRime envK sfLen ⟨.segments segsC1, ['v'], 1, none, mkRat 1 48000⟩ =
      ⟨0, none, [⟨['H', 'i'], ['a'], 1, none⟩, ⟨['B', 'y', 'e'], ['c'], 1, none⟩],
        some ([2] ++ generate_silence (mkRat 1 48000) ++ [3])⟩ :=
  c1_multi_segment_gap_trace envK sfLen ['v'] 1 none (mkRat 1 48000) [2] [3]
    (by decide) rfl rfl

/-- The `unitSegs` unfolded over a cons cell. -/
theorem unitSegs_cons (seg : Segment) (rest : List Segment) :
    unitSegs (seg :: rest) =
      if segText seg = [] then unitSegs rest else seg :: unitSegs rest := by
  by_cases h : segText seg = [] <;>
    simp [unitSegs, List.filter_cons, List.isEmpty_iff, h]

/-- A list with no synthesized unit consists of skipped segments only. -/
theorem unitSegs_eq_nil (l : List Segment) (h : unitSegs l = []) :
    ∀ s ∈ l, segText s = [] := by
  intro s hs
  have := List.filter_eq_nil_iff.mp h s hs
  simpa [List.isEmpty_iff] using this

/-- Success path of the document-mode loop: when every chunk
synthesizes, the loop returns the chunk PCMs interleaved with exactly
one silence buffer between each adjacent pair, and one call per chunk. -/
theorem docLoop_ok (sf : SynthFn) (v : Str) (sp : ℚ) (lg : Option Str) (sil : Buf)
    (total : ℕ) (pcmOf : Str → Buf) :
    ∀ (l : List Str) (i : ℕ), i + l.length = total →
      (∀ ch ∈ l, sf ch v sp lg = .ok (pcmOf ch)) →
      docLoop sf v sp lg sil total i l =
        (.ok (List.intersperse sil (l.map pcmOf)).flatten,
          l.map fun ch => ⟨ch, v, sp, lg⟩) := by
  intro l
  induction l with
  | nil => intro i _ _; rfl
  | cons ch rest ih =>
    intro i hlen hok
    have hch := hok ch (by simp)
    have hrest := ih (i + 1) (by simp only [List.length_cons] at hlen; omega)
      (fun c hc => hok c (by simp [hc]))
    simp only [docLoop, hch, hrest]
    cases rest with
    | nil =>
      have hi : ¬i < total - 1 := by simp only [List.length_cons, List.length_nil] at hlen; omega
      simp [hi, Except.map, List.intersperse]
    | cons r rs =>
      have hi : i < total - 1 := by simp only [List.length_cons] at hlen; omega
      simp [hi, Except.map, List.intersperse]

/-- Success path of the multi-segment loop: the buffer is `assembleM`
(one PCM block per non-skipped segment, with a gap after every
non-final original position), and the calls are exactly the
non-skipped segments' resolved requests, in order. -/
theorem multiLoop_ok (sf : SynthFn) (dv : Str) (dsp : ℚ) (dlg : Option Str) (sil : Buf)
    (total : ℕ) (pcmOf : Segment → Buf) :
    ∀ (l : List Segment) (i : ℕ), i + l.length = total →
      (∀ seg ∈ l, segText seg ≠ [] →
        sf (segText seg) (resolveVoice seg dv) (resolveSpeed seg dsp) (resolveLang seg dlg) =
          .ok (pcmOf seg)) →
      multiLoop sf dv dsp dlg sil total i l =
        (.ok (assembleM sil pcmOf l),
          (unitSegs l).map fun s =>
            ⟨segText s, resolveVoice s dv, resolveSpeed s dsp, resolveLang s dlg⟩) := by
  intro l
  induction l with
  | nil => intro i _ _; rfl
  | cons seg rest ih =>
    intro i hlen hok
    have hrest := ih (i + 1) (by simp only [List.length_cons] at hlen; omega)
      (fun s hs h => hok s (by simp [hs]) h)
    by_cases h : segText seg = []
    · rw [multiLoop, if_pos h, hrest]
      cases rest with
      | nil => simp [assembleM, h, unitSegs_cons]
      | cons b t => simp [assembleM, h, unitSegs_cons]
    · have hs := hok seg (by simp) h
      rw [multiLoop, if_neg h]
      simp only [hs, hrest]
      cases rest with
      | nil =>
        have hi : ¬i < total - 1 := by
          simp only [List.length_cons, List.length_nil] at hlen; omega
        simp [hi, Except.map, assembleM, h, unitSegs_cons]
      | cons b t =>
        have hi : i < total - 1 := by simp only [List.length_cons] at hlen; omega
        simp [hi, Except.map, assembleM, h, unitSegs_cons]

/-- The `assembleM` on a single-element list. -/
theorem assembleM_single (sil : Buf) (pcmOf : Segment → Buf) (seg : Segment) :
    assembleM sil pcmOf [seg] = if segText seg = [] then [] else pcmOf seg := rfl

/-- The `assembleM` on a list of length at least two. -/
theorem assembleM_cons_cons (sil : Buf) (pcmOf : Segment → Buf) (seg b : Segment)
    (t : List Segment) :
    assembleM sil pcmOf (seg :: b :: t) =
      (if segText seg = [] then [] else pcmOf seg ++ sil) ++ assembleM sil pcmOf (b :: t) :=
  rfl

/-- A segment list with no synthesized units assembles to the empty
buffer. -/
theorem assembleM_all_skip (sil : Buf) (pcmOf : Segment → Buf) :
    ∀ l : List Segment, (∀ s ∈ l, segText s = []) → assembleM sil pcmOf l = [] := by
  refine twoStepInduction (fun _ => rfl) (fun seg h => ?_) (fun seg b t iht ihbt h => ?_)
  · rw [assembleM_single, if_pos (h seg (by simp))]
  · rw [assembleM_cons_cons, if_pos (h seg (by simp)),
      ihbt (fun s hs => h s (by simp [hs]))]
    rfl

/-- The `trailGap` ignores a leading segment when the tail is nonempty and
contributes a synthesized unit. -/
theorem trailGap_cons_of_units (sil : Buf) (seg b : Segment) (t : List Segment)
    (hub : unitSegs (b :: t) ≠ []) :
    trailGap sil (seg :: b :: t) = trailGap sil (b :: t) := by
  rw [trailGap, trailGap, List.getLast?_cons_cons]
  cases hlast : (b :: t).getLast? with
  | none => rfl
  | some lastSeg =>
    have h1 : unitSegs (seg :: b :: t) ≠ [] := by
      rw [unitSegs_cons]
      split <;> simp [hub]
    by_cases hl : segText lastSeg = [] <;> simp [hl, hub, h1]

/-- Closed form of `assembleM`: the unit PCMs interleaved with one gap
between each adjacent pair, plus a trailing gap exactly when the final
original position is a skipped segment while at least one unit exists. -/
theorem assembleM_closed (sil : Buf) (pcmOf : Segment → Buf) :
    ∀ l : List Segment,
      assembleM sil pcmOf l =
        (List.intersperse sil ((unitSegs l).map pcmOf)).flatten ++ trailGap sil l := by
  refine twoStepInduction rfl (fun seg => ?_) (fun seg b t iht ihbt => ?_)
  · by_cases h : segText seg = []
    · simp [assembleM_single, h, unitSegs_cons, trailGap, unitSegs]
    · simp [assembleM_single, h, unitSegs_cons, trailGap, unitSegs, List.intersperse]
  · rw [assembleM_cons_cons, ihbt]
    by_cases h : segText seg = []
    · have hu : unitSegs (seg :: b :: t) = unitSegs (b :: t) := by simp [unitSegs_cons, h]
      have htr : trailGap sil (seg :: b :: t) = trailGap sil (b :: t) := by
        rw [trailGap, trailGap, List.getLast?_cons_cons, hu]
      rw [hu, htr, if_pos h]
      simp
    · have hu : unitSegs (seg :: b :: t) = seg :: unitSegs (b :: t) := by
        simp [unitSegs_cons, h]
      rw [if_neg h, hu]
      cases hub : unitSegs (b :: t) with
      | nil =>
        have hskip := unitSegs_eq_nil (b :: t) hub
        obtain ⟨lastSeg, hlast⟩ : ∃ lastSeg, (b :: t).getLast? = some lastSeg := by
          cases hx : (b :: t).getLast? with
          | none => simp at hx
          | some x => exact ⟨x, rfl⟩
        have hlastskip : segText lastSeg = [] :=
          hskip lastSeg (List.mem_of_getLast?_eq_some hlast)
        have htr0 : trailGap sil (b :: t) = [] := by
          rw [trailGap, hlast]
          simp [hub]
        have htr : trailGap sil (seg :: b :: t) = sil := by
          rw [trailGap, List.getLast?_cons_cons, hlast]
          simp [hlastskip, hu, hub]
        rw [htr0, htr]
        simp [List.intersperse]
      | cons u us =>
        have htr : trailGap sil (seg :: b :: t) = trailGap sil (b :: t) :=
          trailGap_cons_of_units sil seg b t (by rw [hub]; simp)
        rw [htr]
        simp [List.intersperse_cons_cons]

/-- Claim C2 (amended): for every successful run, the assembled buffer
handed to the transcoder is the N synthesized PCM blocks in original
order interleaved with exactly N−1 silence buffers of the configured
pause duration, one between each adjacent pair, with no leading silence;
in document mode there is also never a trailing silence, while in
multi-segment mode exactly one trailing silence buffer follows when the
final list position holds a skipped (empty-text) segment and at least
one unit was synthesized (`trailGap`).  The synthesis calls are exactly
the units, in order. -/
theorem c2_assembled_buffer_structure :
    (∀ (env : Str → Option Str) (sf : SynthFn) (v : Str) (sp : ℚ) (lg : Option Str)
        (pause : ℚ) (raw : Str) (pcmOf : Str → Buf),
      ¬(env apiKeyName).getD [] = [] →
      ¬pyStrip raw = [] →
      (∀ ch ∈ chunk_text (pyStrip raw) CHUNK_SIZE, sf ch v sp lg = .ok (pcmOf ch)) →
      runRime env sf ⟨.document raw, v, sp, lg, pause⟩ =
        ⟨0, none,
          (chunk_text (pyStrip raw) CHUNK_SIZE).map fun ch => ⟨ch, v, sp, lg⟩,
          some (List.intersperse (generate_silence pause)
            ((chunk_text (pyStrip raw) CHUNK_SIZE).map pcmOf)).flatten⟩) ∧
    (∀ (env : Str → Option Str) (sf : SynthFn) (dv : Str) (sp : ℚ) (lg : Option Str)
        (pause : ℚ) (segs : List Segment) (pcmOf : Segment → Buf),
      ¬(env apiKeyName).getD [] = [] →
      (∀ seg ∈ segs, segText seg ≠ [] →
        sf (segText seg) (resolveVoice seg dv) (resolveSpeed seg sp) (resolveLang seg lg) =
          .ok (pcmOf seg)) →
      runRime env sf ⟨.segments segs, dv, sp, lg, pause⟩ =
        ⟨0, none,
          (unitSegs segs).map fun s =>
            ⟨segText s, resolveVoice s dv, resolveSpeed s sp, resolveLang s lg⟩,
          some ((List.intersperse (generate_silence pause)
              ((unitSegs segs).map pcmOf)).flatten ++
            trailGap (generate_silence pause) segs)⟩) := by
  constructor
  · intro env sf v sp lg pause raw pcmOf hk hdoc hok
    rw [runRime, if_neg hk]
    dsimp only
    rw [docLoop_ok sf v sp lg (generate_silence pause) (chunk_text (pyStrip raw) CHUNK_SIZE).length
      pcmOf (chunk_text (pyStrip raw) CHUNK_SIZE) 0 (Nat.zero_add _) hok]
    simp [hdoc]
  · intro env sf dv sp lg pause segs pcmOf hk hok
    rw [runRime, if_neg hk]
    dsimp only
    rw [multiLoop_ok sf dv sp lg (generate_silence pause) segs.length pcmOf segs 0
      (Nat.zero_add _) hok]
    rw [assembleM_closed]

/-- Counterexample to claim C2 as stated: on
`[{"text":"Hi","voice":"a"},{"text":"Bye","voice":"c"},{"text":"","voice":"b"}]`
two units are successfully synthesized (N = 2), yet the assembled
buffer `[2] ++ [0,0] ++ [3] ++ [0,0]` carries a TRAILING silence buffer
— two gaps instead of the claimed N−1 = 1 — because the gap condition
uses the original index and the final list position is a skipped
segment.  (Oracle `sfLen`, pause `1/48000` s, silence `[0,0]`.) -/
theorem c2_trailing_silence_refuted :
    (runRime envK sfLen ⟨.segments segsTrailing, ['v'], 1, none, mkRat 1 48000⟩).synthCalls.length
        = 2 ∧
      (runRime envK sfLen ⟨.segments segsTrailing, ['v'], 1, none, mkRat 1 48000⟩).transcoded =
        some ([2] ++ [0, 0] ++ [3] ++ [0, 0]) ∧
      (runRime envK sfLen ⟨.segments segsTrailing, ['v'], 1, none, mkRat 1 48000⟩).transcoded ≠
        some ((List.intersperse [0, 0] [[2], [3]]).flatten) := by decide

/-- Witness for C2 (amended): the multi-segment part applied to
`segsTrailing` with the `sfLen` oracle. -/
theorem c2_assembled_buffer_structure_witness :
    runRime envK sfLen ⟨.segments segsTrailing, ['v'], 1, none, mkRat 1 48000⟩ =
      ⟨0, none,
        (unitSegs segsTrailing).map fun s =>
          ⟨segText s, resolveVoice s ['v'], resolveSpeed s 1, resolveLang s none⟩,
        some ((List.intersperse (generate_silence (mkRat 1 48000))
            ((unitSegs segsTrailing).map fun s => [(segText s).length])).flatten ++
          trailGap (generate_silence (mkRat 1 48000)) segsTrailing)⟩ :=
  c2_assembled_buffer_structure.2 envK sfLen ['v'] 1 none (mkRat 1 48000) segsTrailing
    (fun s => [(segText s).length]) (by decide) (fun _ _ _ => rfl)

/-- When the multi-segment loop fails, the reported index is the
original position of an actually failing segment: that segment has
non-empty text, the reported voice is its resolved voice, and the
synthesis oracle fails on exactly its resolved request. -/
theorem multiLoop_error_spec (sf : SynthFn) (dv : Str) (dsp : ℚ) (dlg : Option Str)
    (sil : Buf) (total : ℕ) :
    ∀ (l : List Segment) (start i : ℕ) (v e : Str) (calls : List SynthCall),
      multiLoop sf dv dsp dlg sil total start l = (.error (i, v, e), calls) →
      ∃ p, ∃ hp : p < l.length, i = start + p ∧
        segText (l.get ⟨p, hp⟩) ≠ [] ∧
        v = resolveVoice (l.get ⟨p, hp⟩) dv ∧
        sf (segText (l.get ⟨p, hp⟩)) v (resolveSpeed (l.get ⟨p, hp⟩) dsp)
          (resolveLang (l.get ⟨p, hp⟩) dlg) = .error e := by
  intro l
  induction l with
  | nil =>
    intro start i v e calls h
    exact absurd h (by rw [multiLoop]; simp)
  | cons seg rest ih =>
    intro start i v e calls h
    by_cases hskip : segText seg = []
    · rw [multiLoop, if_pos hskip] at h
      obtain ⟨p, hp, hi, hne, hv, hsf⟩ := ih (start + 1) i v e calls h
      exact ⟨p + 1, Nat.succ_lt_succ hp, by omega, hne, hv, hsf⟩
    · rw [multiLoop, if_neg hskip] at h
      dsimp only at h
      cases hsf : sf (segText seg) (resolveVoice seg dv) (resolveSpeed seg dsp)
          (resolveLang seg dlg) with
      | error e2 =>
        rw [hsf] at h
        simp only [Prod.mk.injEq, Except.error.injEq] at h
        obtain ⟨⟨hi, hv, he⟩, -⟩ := h
        exact ⟨0, Nat.succ_pos _, by omega, hskip, hv.symm, by rw [hv, he] at hsf; exact hsf⟩
      | ok pcm =>
        rw [hsf] at h
        simp only [Prod.mk.injEq] at h
        obtain ⟨h1, h2⟩ := h
        cases hr : (multiLoop sf dv dsp dlg sil total (start + 1) rest).1 with
        | ok b => rw [hr] at h1; exact absurd h1 (by simp [Except.map])
        | error a =>
          rw [hr] at h1
          simp only [Except.map, Except.error.injEq] at h1
          obtain ⟨p, hp, hi, hne, hv, hsf2⟩ := ih (start + 1) i v e
            (multiLoop sf dv dsp dlg sil total (start + 1) rest).2
            (by rw [← h1, ← hr])
          exact ⟨p + 1, Nat.succ_lt_succ hp, by omega, hne, hv, hsf2⟩

/-- When the document-mode loop fails, the reported index is the
position of an actually failing chunk. -/
theorem docLoop_error_spec (sf : SynthFn) (v : Str) (sp : ℚ) (lg : Option Str)
    (sil : Buf) (total : ℕ) :
    ∀ (l : List Str) (start i : ℕ) (e : Str) (calls : List SynthCall),
      docLoop sf v sp lg sil total start l = (.error (i, e), calls) →
      ∃ p, ∃ hp : p < l.length, i = start + p ∧
        sf (l.get ⟨p, hp⟩) v sp lg = .error e := by
  intro l
  induction l with
  | nil =>
    intro start i e calls h
    exact absurd h (by rw [docLoop]; simp)
  | cons ch rest ih =>
    intro start i e calls h
    rw [docLoop] at h
    cases hsf : sf ch v sp lg with
    | error e2 =>
      rw [hsf] at h
      simp only [Prod.mk.injEq, Except.error.injEq] at h
      obtain ⟨⟨hi, he⟩, -⟩ := h
      exact ⟨0, Nat.succ_pos _, by omega, by rw [he] at hsf; exact hsf⟩
    | ok pcm =>
      rw [hsf] at h
      simp only [Prod.mk.injEq] at h
      obtain ⟨h1, h2⟩ := h
      cases hr : (docLoop sf v sp lg sil total (start + 1) rest).1 with
      | ok b => rw [hr] at h1; exact absurd h1 (by simp [Except.map])
      | error a =>
        rw [hr] at h1
        simp only [Except.map, Except.error.injEq] at h1
        obtain ⟨p, hp, hi, hsf2⟩ := ih (start + 1) i e
          (docLoop sf v sp lg sil total (start + 1) rest).2 (by rw [← h1, ← hr])
        exact ⟨p + 1, Nat.succ_lt_succ hp, by omega, hsf2⟩

/-- Claim C7 (amended): in every mode, a failing synthesis call aborts
the run with exit code 1 and the transcoder is never invoked (no output
file), with the diagnostic on stderr; the diagnostic carries the
failing unit's index in document mode and its index and resolved voice
in multi-segment mode, and the reported index really is the position of
a failing unit; in single mode the diagnostic is
`"Error calling Rime API: ..."` without an index. -/
theorem c7_failure_reporting :
    (∀ (env : Str → Option Str) (sf : SynthFn) (dv : Str) (sp : ℚ) (lg : Option Str)
        (pause : ℚ) (segs : List Segment) (i : ℕ) (v e : Str) (calls : List SynthCall),
      ¬(env apiKeyName).getD [] = [] →
      multiLoop sf dv sp lg (generate_silence pause) segs.length 0 segs =
        (.error (i, v, e), calls) →
      runRime env sf ⟨.segments segs, dv, sp, lg, pause⟩ =
          ⟨1, some (segErrMsg i v e), calls, none⟩ ∧
        ∃ hp : i < segs.length,
          segText (segs.get ⟨i, hp⟩) ≠ [] ∧
          v = resolveVoice (segs.get ⟨i, hp⟩) dv ∧
          sf (segText (segs.get ⟨i, hp⟩)) v (resolveSpeed (segs.get ⟨i, hp⟩) sp)
            (resolveLang (segs.get ⟨i, hp⟩) lg) = .error e) ∧
    (∀ (env : Str → Option Str) (sf : SynthFn) (v : Str) (sp : ℚ) (lg : Option Str)
        (pause : ℚ) (raw : Str) (i : ℕ) (e : Str) (calls : List SynthCall),
      ¬(env apiKeyName).getD [] = [] →
      ¬pyStrip raw = [] →
      docLoop sf v sp lg (generate_silence pause)
          (chunk_text (pyStrip raw) CHUNK_SIZE).length 0
          (chunk_text (pyStrip raw) CHUNK_SIZE) = (.error (i, e), calls) →
      runRime env sf ⟨.document raw, v, sp, lg, pause⟩ =
          ⟨1, some (chunkErrMsg i e), calls, none⟩ ∧
        ∃ hp : i < (chunk_text (pyStrip raw) CHUNK_SIZE).length,
          sf ((chunk_text (pyStrip raw) CHUNK_SIZE).get ⟨i, hp⟩) v sp lg = .error e) ∧
    (∀ (env : Str → Option Str) (sf : SynthFn) (v : Str) (sp : ℚ) (lg : Option Str)
        (pause : ℚ) (txt e : Str),
      ¬(env apiKeyName).getD [] = [] →
      sf txt v sp lg = .error e →
      runRime env sf ⟨.single txt, v, sp, lg, pause⟩ =
        ⟨1, some (apiErrMsg e), [⟨txt, v, sp, lg⟩], none⟩) := by
  refine ⟨?_, ?_, ?_⟩
  · intro env sf dv sp lg pause segs i v e calls hk hfail
    constructor
    · rw [runRime, if_neg hk]
      dsimp only
      rw [hfail]
    · obtain ⟨p, hp, hip, hne, hv, hsf⟩ :=
        multiLoop_error_spec sf dv sp lg (generate_silence pause) segs.length segs 0 i v e
          calls hfail
      have hpi : p = i := by omega
      subst hpi
      exact ⟨hp, hne, hv, hsf⟩
  · intro env sf v sp lg pause raw i e calls hk hdoc hfail
    constructor
    · rw [runRime, if_neg hk]
      dsimp only
      rw [if_neg hdoc, hfail]
    · obtain ⟨p, hp, hip, hsf⟩ :=
        docLoop_error_spec sf v sp lg (generate_silence pause)
          (chunk_text (pyStrip raw) CHUNK_SIZE).length (chunk_text (pyStrip raw) CHUNK_SIZE)
          0 i e calls hfail
      have hpi : p = i := by omega
      subst hpi
      exact ⟨hp, hsf⟩
  · intro env sf v sp lg pause txt e hk hsf
    rw [runRime, if_neg hk]
    dsimp only
    rw [hsf]

/-- Counterexample to claim C7 as stated: in single-voice mode a failing
synthesis call exits 1 with no transcoding, but the stderr line
`"Error calling Rime API: boom"` contains no digit at all — the failing
unit's index is NOT reported, contrary to the claim's "in every mode". -/
theorem c7_single_mode_no_index :
    runRime envK sfBoom ⟨.single ['x', 'y'], ['v'], 1, none, 0⟩ =
        ⟨1, some (apiErrMsg "boom".toList), [⟨['x', 'y'], ['v'], 1, none⟩], none⟩ ∧
      ∀ c ∈ "Error calling Rime API: boom".toList, ¬c.isDigit := by decide

/-- Witness for C7 (amended): the multi-segment part at a concrete
failing oracle — the first non-skipped segment (index 0, voice "a")
fails, the run exits 1 with the index and voice in the diagnostic, and
nothing is transcoded. -/
theorem c7_failure_reporting_witness :
    runRime envK sfBoom ⟨.segments segsC1, ['v'], 1, none, mkRat 1 48000⟩ =
        ⟨1, some (segErrMsg 0 ['a'] "boom".toList),
          [⟨['H', 'i'], ['a'], 1, none⟩], none⟩ ∧
      ∃ hp : 0 < segsC1.length,
        segText (segsC1.get ⟨0, hp⟩) ≠ [] ∧
        ['a'] = resolveVoice (segsC1.get ⟨0, hp⟩) ['v'] ∧
        sfBoom (segText (segsC1.get ⟨0, hp⟩)) ['a'] (resolveSpeed (segsC1.get ⟨0, hp⟩) 1)
          (resolveLang (segsC1.get ⟨0, hp⟩) none) = .error "boom".toList :=
  c7_failure_reporting.1 envK sfBoom ['v'] 1 none (mkRat 1 48000) segsC1 0 ['a']
    "boom".toList [⟨['H', 'i'], ['a'], 1, none⟩] (by decide) rfl

/-- The multi-segment loop treats any two skipped segments at the same
position identically (it inspects nothing but the emptiness of the
text). -/
theorem multiLoop_congr_skip (sf : SynthFn) (dv : Str) (dsp : ℚ) (dlg : Option Str)
    (sil : Buf) (total : ℕ) (a b : Segment) (post : List Segment)
    (ha : segText a = []) (hb : segText b = []) :
    ∀ (pre : List Segment) (i : ℕ),
      multiLoop sf dv dsp dlg sil total i (pre ++ a :: post) =
        multiLoop sf dv dsp dlg sil total i (pre ++ b :: post) := by
  intro pre
  induction pre with
  | nil =>
    intro i
    rw [List.nil_append, List.nil_append, multiLoop, if_pos ha, multiLoop, if_pos hb]
  | cons p pre ih =>
    intro i
    rw [List.cons_append, List.cons_append, multiLoop, multiLoop]
    by_cases hp : segText p = []
    · rw [if_pos hp, if_pos hp, ih]
    · rw [if_neg hp, if_neg hp, ih (i + 1)]

/-- Every synthesis request issued by the multi-segment loop has
non-empty text (skipped segments never produce a call). -/
theorem multiLoop_calls_text (sf : SynthFn) (dv : Str) (dsp : ℚ) (dlg : Option Str)
    (sil : Buf) (total : ℕ) :
    ∀ (l : List Segment) (i : ℕ) (c : SynthCall),
      c ∈ (multiLoop sf dv dsp dlg sil total i l).2 → c.text ≠ [] := by
  intro l
  induction l with
  | nil => intro i c hc; rw [multiLoop] at hc; exact absurd hc (by simp)
  | cons seg rest ih =>
    intro i c hc
    by_cases hskip : segText seg = []
    · rw [multiLoop, if_pos hskip] at hc
      exact ih (i + 1) c hc
    · rw [multiLoop, if_neg hskip] at hc
      dsimp only at hc
      cases hsf : sf (segText seg) (resolveVoice seg dv) (resolveSpeed seg dsp)
          (resolveLang seg dlg) with
      | error e =>
        rw [hsf] at hc
        simp only [List.mem_singleton] at hc
        rw [hc]
        exact hskip
      | ok pcm =>
        rw [hsf] at hc
        simp only [List.mem_cons] at hc
        rcases hc with hc | hc
        · rw [hc]; exact hskip
        · exact ih (i + 1) c hc

/-- Claim C10: a segment record with no "text" field at all
(`text := none`) is treated exactly like one with an explicit empty
text: the whole run is unchanged if one is swapped for the other, the
lone segment contributes no PCM and no call and no error, and no
synthesis request with empty text is ever issued. -/
theorem c10_missing_text_field_skipped (env : Str → Option Str) (sf : SynthFn)
    (dv : Str) (sp : ℚ) (lg : Option Str) (pause : ℚ)
    (pre post : List Segment) (vo lg2 : Option Str) (sp2 : Option ℚ) :
    runRime env sf ⟨.segments (pre ++ ⟨none, vo, lg2, sp2⟩ :: post), dv, sp, lg, pause⟩ =
        runRime env sf ⟨.segments (pre ++ ⟨some [], vo, lg2, sp2⟩ :: post), dv, sp, lg, pause⟩ ∧
      (∀ total i, multiLoop sf dv sp lg (generate_silence pause) total i
        [⟨none, vo, lg2, sp2⟩] = (.ok [], [])) ∧
      ∀ c ∈ (runRime env sf
          ⟨.segments (pre ++ ⟨none, vo, lg2, sp2⟩ :: post), dv, sp, lg, pause⟩).synthCalls,
        c.text ≠ [] := by
  have hlen : (pre ++ (⟨none, vo, lg2, sp2⟩ : Segment) :: post).length =
      (pre ++ (⟨some [], vo, lg2, sp2⟩ : Segment) :: post).length := by simp
  refine ⟨?_, ?_, ?_⟩
  · by_cases hk : (env apiKeyName).getD [] = []
    · rw [runRime, if_pos hk, runRime, if_pos hk]
    · rw [runRime, if_neg hk, runRime, if_neg hk]
      dsimp only
      rw [hlen, multiLoop_congr_skip sf dv sp lg (generate_silence pause) _
        ⟨none, vo, lg2, sp2⟩ ⟨some [], vo, lg2, sp2⟩ post rfl rfl pre 0]
  · intro total i
    rw [multiLoop, if_pos (show segText ⟨none, vo, lg2, sp2⟩ = [] from rfl), multiLoop]
  · intro c hc
    by_cases hk : (env apiKeyName).getD [] = []
    · rw [runRime, if_pos hk] at hc
      exact absurd hc (by simp)
    · rw [runRime, if_neg hk] at hc
      dsimp only at hc
      rcases hml : multiLoop sf dv sp lg (generate_silence pause)
          (pre ++ (⟨none, vo, lg2, sp2⟩ : Segment) :: post).length 0
          (pre ++ (⟨none, vo, lg2, sp2⟩ : Segment) :: post) with ⟨res, calls⟩
      have hcalls : c ∈ calls → c.text ≠ [] := fun h =>
        multiLoop_calls_text sf dv sp lg (generate_silence pause) _ _ 0 c (by rw [hml]; exact h)
      rw [hml] at hc
      cases res with
      | error f =>
        rcases f with ⟨i, v, e⟩
        exact hcalls (by simpa using hc)
      | ok buf => exact hcalls (by simpa using hc)

/-- Witness for C10 on a concrete list: `{"voice":"b"}` (no text key) in
the middle behaves exactly like `{"text":"","voice":"b"}`. -/
theorem c10_missing_text_field_skipped_witness :
    runRime envK sfLen
        ⟨.segments ([⟨some ['H', 'i'], some ['a'], none, none⟩] ++
          ⟨none, some ['b'], none, none⟩ :: [⟨some ['B', 'y', 'e'], some ['c'], none, none⟩]),
          ['v'], 1, none, mkRat 1 48000⟩ =
      runRime envK sfLen
        ⟨.segments ([⟨some ['H', 'i'], some ['a'], none, none⟩] ++
          ⟨some [], some ['b'], none, none⟩ :: [⟨some ['B', 'y', 'e'], some ['c'], none, none⟩]),
          ['v'], 1, none, mkRat 1 48000⟩ :=
  (c10_missing_text_field_skipped envK sfLen ['v'] 1 none (mkRat 1 48000)
    [⟨some ['H', 'i'], some ['a'], none, none⟩]
    [⟨some ['B', 'y', 'e'], some ['c'], none, none⟩] (some ['b']) none none).1

/-- The `splitWsAux` with a non-empty accumulator always emits a word. -/
theorem splitWsAux_ne_nil_of_acc :
    ∀ (s acc : Str), acc ≠ [] → splitWsAux acc s ≠ [] := by
  intro s
  induction s with
  | nil => intro acc h; rw [splitWsAux]; simp [h]
  | cons c t ih =>
    intro acc h
    rw [splitWsAux]
    by_cases hc : pyIsSpace c
    · simp only [hc, if_true, h, if_neg h]
      simp
    · simp only [hc, if_false]
      exact ih (c :: acc) (by simp)

/-- A string containing a non-whitespace character splits into at least
one word. -/
theorem splitWsAux_ne_nil :
    ∀ (s acc : Str), (∃ c ∈ s, pyIsSpace c = false) → splitWsAux acc s ≠ [] := by
  intro s
  induction s with
  | nil => intro acc h; simp at h
  | cons c t ih =>
    intro acc h
    rw [splitWsAux]
    by_cases hc : pyIsSpace c
    · have ht : ∃ d ∈ t, pyIsSpace d = false := by
        obtain ⟨d, hd, hdf⟩ := h
        rcases List.mem_cons.mp hd with rfl | hd
        · rw [hc] at hdf; cases hdf
        · exact ⟨d, hd, hdf⟩
      by_cases ha : acc = [] <;> simp [hc, ha, ih [] ht]
    · simp only [hc, if_false]
      exact splitWsAux_ne_nil_of_acc t (c :: acc) (by simp)

/-- A fully-whitespace string splits into no words. -/
theorem splitWs_eq_nil (s : Str) (h : ∀ c ∈ s, pyIsSpace c = true) : splitWs s = [] := by
  rw [splitWs]
  induction s with
  | nil => rfl
  | cons c t ih =>
    rw [splitWsAux]
    simp only [h c (by simp), if_true]
    exact ih fun d hd => h d (by simp [hd])

/-- Words produced by `splitWsAux` are non-empty and whitespace-free. -/
theorem splitWsAux_words :
    ∀ (s acc : Str), (∀ c ∈ acc, pyIsSpace c = false) →
      ∀ w ∈ splitWsAux acc s, w ≠ [] ∧ ∀ c ∈ w, pyIsSpace c = false := by
  intro s
  induction s with
  | nil =>
    intro acc hacc w hw
    rw [splitWsAux] at hw
    by_cases ha : acc = []
    · simp [ha] at hw
    · simp only [ha, if_false] at hw
      simp only [List.mem_singleton] at hw
      subst hw
      exact ⟨by simp [ha], fun c hc => hacc c (List.mem_reverse.mp hc)⟩
  | cons c t ih =>
    intro acc hacc w hw
    rw [splitWsAux] at hw
    by_cases hc : pyIsSpace c
    · simp only [hc, if_true] at hw
      by_cases ha : acc = []
      · rw [if_pos ha] at hw
        exact ih [] (by simp) w hw
      · rw [if_neg ha] at hw
        rcases List.mem_cons.mp hw with rfl | hw
        · exact ⟨by simp [ha], fun d hd => hacc d (List.mem_reverse.mp hd)⟩
        · exact ih [] (by simp) w hw
    · simp only [hc, if_false] at hw
      refine ih (c :: acc) ?_ w hw
      intro d hd
      rcases List.mem_cons.mp hd with rfl | hd
      · simpa using hc
      · exact hacc d hd

/-- The `joinSp` on a list with at least two words. -/
theorem joinSp_cons_cons (w v : Str) (t : List Str) :
    joinSp (w :: v :: t) = w ++ ' ' :: joinSp (v :: t) := rfl

/-- The `joinSp` of a list of non-empty words is non-empty. -/
theorem joinSp_ne_nil : ∀ l : List Str, l ≠ [] → (∀ w ∈ l, w ≠ []) → joinSp l ≠ [] := by
  refine twoStepInduction (by simp) (fun w _ h1 => ?_) (fun w v t _ _ _ _ => ?_)
  · exact h1 w (by simp)
  · rw [joinSp_cons_cons]; simp

/-- The last character of `joinSp` is the last character of the last
word. -/
theorem joinSp_getLast? :
    ∀ l : List Str, l ≠ [] → (∀ w ∈ l, w ≠ []) →
      ∃ w, l.getLast? = some w ∧ (joinSp l).getLast? = w.getLast? := by
  refine twoStepInduction (by simp) (fun w _ _ => ⟨w, rfl, rfl⟩)
    (fun w v t iht ihvt _ h1 => ?_)
  obtain ⟨u, hu1, hu2⟩ := ihvt (by simp) (fun x hx => h1 x (by simp [hx]))
  refine ⟨u, by rw [List.getLast?_cons_cons]; exact hu1, ?_⟩
  rw [joinSp_cons_cons, List.getLast?_append, ← hu2]
  have hjoin : joinSp (v :: t) ≠ [] :=
    joinSp_ne_nil (v :: t) (by simp) (fun x hx => h1 x (by simp [hx]))
  cases hj : joinSp (v :: t) with
  | nil => exact absurd hj hjoin
  | cons a as =>
    obtain ⟨y, hy⟩ : ∃ y, (a :: as).getLast? = some y :=
      ⟨(a :: as).getLast (by simp), (List.getLast_eq_iff_getLast?_eq_some (by simp)).mp rfl⟩
    rw [List.getLast?_cons_cons, hy]
    rfl

/-- The `replace2` equation for lists of length at least two. -/
theorem replace2_cons_cons (p₁ p₂ : Char) (rep : Str) (c₁ c₂ : Char) (t : Str) :
    replace2 p₁ p₂ rep (c₁ :: c₂ :: t) =
      if c₁ = p₁ ∧ c₂ = p₂ then rep ++ replace2 p₁ p₂ rep t
      else c₁ :: replace2 p₁ p₂ rep (c₂ :: t) := rfl

/-- The `split2` equation for lists of length at least two. -/
theorem split2_cons_cons (s₁ s₂ : Char) (c₁ c₂ : Char) (t : Str) :
    split2 s₁ s₂ (c₁ :: c₂ :: t) =
      if c₁ = s₁ ∧ c₂ = s₂ then [] :: split2 s₁ s₂ t
      else consHead c₁ (split2 s₁ s₂ (c₂ :: t)) := rfl

/-- Replacement with a non-empty replacement string preserves
non-emptiness. -/
theorem replace2_ne_nil (p₁ p₂ : Char) (rep : Str) (hrep : rep ≠ []) :
    ∀ s : Str, s ≠ [] → replace2 p₁ p₂ rep s ≠ [] := by
  refine twoStepInduction (by simp) (fun c _ => by rw [replace2]; simp)
    (fun c₁ c₂ t _ _ _ => ?_)
  rw [replace2_cons_cons]
  split
  · simp [hrep]
  · simp

/-- The last element of an append with a non-empty right part. -/
theorem getLast?_append_right {α : Type} (l₁ l₂ : List α) (h : l₂ ≠ []) :
    (l₁ ++ l₂).getLast? = l₂.getLast? := by
  obtain ⟨y, hy⟩ : ∃ y, l₂.getLast? = some y :=
    ⟨l₂.getLast h, (List.getLast_eq_iff_getLast?_eq_some h).mp rfl⟩
  rw [List.getLast?_append, hy]
  rfl

/-- The last element of a cons with a non-empty tail. -/
theorem getLast?_cons_of_ne_nil {α : Type} (a : α) {l : List α} (h : l ≠ []) :
    (a :: l).getLast? = l.getLast? := by
  cases l with
  | nil => exact absurd rfl h
  | cons b t => exact List.getLast?_cons_cons

/-- When the string does not end in the pattern's second character, the
replacement (by `".\n"`) preserves the last character. -/
theorem replace2_getLast? (p₁ p₂ : Char) :
    ∀ s : Str, s ≠ [] → s.getLast? ≠ some p₂ →
      (replace2 p₁ p₂ ['.', '\n'] s).getLast? = s.getLast? := by
  refine twoStepInduction (by simp) (fun c _ _ => by rw [replace2]) ?_
  intro c₁ c₂ t iht ihct _ hlast
  rw [replace2_cons_cons]
  split
  · rename_i hmatch
    cases t with
    | nil =>
      exfalso
      apply hlast
      rw [hmatch.2]
      rfl
    | cons d u =>
      have ht := iht (by simp) (by rwa [List.getLast?_cons_cons, List.getLast?_cons_cons] at hlast)
      have hRne : replace2 p₁ p₂ ['.', '\n'] (d :: u) ≠ [] :=
        replace2_ne_nil p₁ p₂ ['.', '\n'] (by simp) (d :: u) (by simp)
      rw [getLast?_append_right _ _ hRne, ht, List.getLast?_cons_cons, List.getLast?_cons_cons]
  · have hRne : replace2 p₁ p₂ ['.', '\n'] (c₂ :: t) ≠ [] :=
      replace2_ne_nil p₁ p₂ ['.', '\n'] (by simp) (c₂ :: t) (by simp)
    have hct := ihct (by simp) (by rwa [List.getLast?_cons_cons] at hlast)
    rw [getLast?_cons_of_ne_nil c₁ hRne, hct, List.getLast?_cons_cons]

/-- Membership in a split result after `consHead`. -/
theorem consHead_mem (c : Char) (f : Str) (l : List Str) (h : f ∈ l) :
    f ∈ consHead c l ∨ (c :: f) ∈ consHead c l := by
  cases l with
  | nil => simp at h
  | cons g gs =>
    rcases List.mem_cons.mp h with rfl | h
    · right; rw [consHead]; simp
    · left; rw [consHead]; simp [h]

/-- Splitting a string whose last character is not the separator's
second character yields a last-character-preserving non-empty fragment. -/
theorem split2_last_fragment (s₁ s₂ : Char) :
    ∀ s : Str, s ≠ [] → s.getLast? ≠ some s₂ →
      ∃ f ∈ split2 s₁ s₂ s, f ≠ [] ∧ f.getLast? = s.getLast? := by
  refine twoStepInduction (by simp) (fun c _ _ => ⟨[c], by rw [split2]; simp, by simp, rfl⟩) ?_
  intro c₁ c₂ t iht ihct _ hlast
  rw [split2_cons_cons]
  split
  · rename_i hmatch
    cases t with
    | nil =>
      exfalso
      apply hlast
      rw [hmatch.2]
      rfl
    | cons d u =>
      obtain ⟨f, hf, hfne, hfl⟩ :=
        iht (by simp) (by rwa [List.getLast?_cons_cons, List.getLast?_cons_cons] at hlast)
      exact ⟨f, by simp [hf], hfne,
        by rw [hfl, List.getLast?_cons_cons, List.getLast?_cons_cons]⟩
  · obtain ⟨f, hf, hfne, hfl⟩ := ihct (by simp) (by rwa [List.getLast?_cons_cons] at hlast)
    rcases consHead_mem c₁ f (split2 s₁ s₂ (c₂ :: t)) hf with hm | hm
    · exact ⟨f, hm, hfne, by rw [hfl, List.getLast?_cons_cons]⟩
    · exact ⟨c₁ :: f, hm, by simp,
        by rw [getLast?_cons_of_ne_nil c₁ hfne, hfl, List.getLast?_cons_cons]⟩

/-- The `dropWhile` keeps a witness that fails the predicate. -/
theorem dropWhile_witness {p : Char → Bool} :
    ∀ s : Str, (∃ c ∈ s, p c = false) → ∃ c ∈ s.dropWhile p, p c = false := by
  intro s
  induction s with
  | nil => intro h; simp at h
  | cons c t ih =>
    intro h
    rw [List.dropWhile_cons]
    by_cases hc : p c
    · have ht : ∃ d ∈ t, p d = false := by
        obtain ⟨d, hd, hdf⟩ := h
        rcases List.mem_cons.mp hd with rfl | hd
        · rw [hc] at hdf; cases hdf
        · exact ⟨d, hd, hdf⟩
      simpa [hc] using ih ht
    · refine ⟨c, ?_, by simpa using hc⟩
      simp [hc]

/-- A string containing a non-whitespace character strips to a
non-empty string. -/
theorem pyStrip_ne_nil {s : Str} {c : Char} (hc : c ∈ s) (hns : pyIsSpace c = false) :
    pyStrip s ≠ [] := by
  rw [pyStrip]
  obtain ⟨d, hd, hdf⟩ := dropWhile_witness s ⟨c, hc, hns⟩
  obtain ⟨e, he, hef⟩ :=
    dropWhile_witness ((s.dropWhile pyIsSpace).reverse) ⟨d, List.mem_reverse.mpr hd, hdf⟩
  intro hcontra
  rw [List.reverse_eq_nil_iff] at hcontra
  rw [hcontra] at he
  simp at he

/-- Every sentence emitted by the splitter is non-empty and ends in one
of `. ! ?` (the code re-appends `.` when missing). -/
theorem sentences_props (text : Str) (s : Str) (hs : s ∈ sentences text) :
    s ≠ [] ∧ endsTerm s = true := by
  rw [sentences] at hs
  obtain ⟨raw, -, hraw⟩ := List.mem_filterMap.mp hs
  by_cases h : pyStrip raw = []
  · rw [if_pos h] at hraw; cases hraw
  · rw [if_neg h] at hraw
    injection hraw with hraw
    subst hraw
    rw [addTerm]
    by_cases ht : endsTerm (pyStrip raw)
    · rw [if_pos ht]; exact ⟨h, ht⟩
    · rw [if_neg ht]
      exact ⟨by simp, by simp [endsTerm, List.getLast?_concat]⟩

/-- A fully-whitespace input produces no sentences. -/
theorem sentences_of_all_space (text : Str) (h : ∀ c ∈ text, pyIsSpace c = true) :
    sentences text = [] := by
  rw [sentences, normalizeWs, splitWs_eq_nil text h]
  rfl

/-- An input containing a non-whitespace character produces at least one
sentence: the last split fragment keeps the (non-whitespace) last
character of the normalised text, so it survives the strip-and-filter. -/
theorem sentences_ne_nil (text : Str) (h : ∃ c ∈ text, pyIsSpace c = false) :
    sentences text ≠ [] := by
  have hsw : splitWs text ≠ [] := splitWsAux_ne_nil text [] h
  have hwords := splitWsAux_words text [] (by simp)
  have hwne : ∀ w ∈ splitWs text, w ≠ [] := fun w hw => (hwords w hw).1
  obtain ⟨w, hw1, hw2⟩ := joinSp_getLast? (splitWs text) hsw hwne
  have hwmem : w ∈ splitWs text := List.mem_of_getLast?_eq_some hw1
  have hwne2 : w ≠ [] := (hwords w hwmem).1
  obtain ⟨d, hd⟩ : ∃ d, w.getLast? = some d :=
    ⟨w.getLast hwne2, (List.getLast_eq_iff_getLast?_eq_some hwne2).mp rfl⟩
  have hdns : pyIsSpace d = false := (hwords w hwmem).2 d (List.mem_of_getLast?_eq_some hd)
  have hnne : normalizeWs text ≠ [] := joinSp_ne_nil (splitWs text) hsw hwne
  have hnl : (normalizeWs text).getLast? = some d := by rw [normalizeWs, hw2, hd]
  have hd1 : d ≠ ' ' := by intro hcontra; rw [hcontra] at hdns; simp [pyIsSpace] at hdns
  have hd2 : d ≠ '\n' := by intro hcontra; rw [hcontra] at hdns; simp [pyIsSpace] at hdns
  have hr1ne : replace2 '!' ' ' ['.', '\n'] (normalizeWs text) ≠ [] :=
    replace2_ne_nil _ _ _ (by simp) _ hnne
  have hr1l : (replace2 '!' ' ' ['.', '\n'] (normalizeWs text)).getLast? = some d := by
    rw [replace2_getLast? '!' ' ' (normalizeWs text) hnne (by rw [hnl]; simp [hd1]), hnl]
  have hr2ne : replace2 '?' ' ' ['.', '\n']
      (replace2 '!' ' ' ['.', '\n'] (normalizeWs text)) ≠ [] :=
    replace2_ne_nil _ _ _ (by simp) _ hr1ne
  have hr2l : (replace2 '?' ' ' ['.', '\n']
      (replace2 '!' ' ' ['.', '\n'] (normalizeWs text))).getLast? = some d := by
    rw [replace2_getLast? '?' ' ' _ hr1ne (by rw [hr1l]; simp [hd1]), hr1l]
  obtain ⟨f, hf, hfne, hfl⟩ :=
    split2_last_fragment '.' '\n' _ hr2ne (by rw [hr2l]; simp [hd2])
  have hfl2 : f.getLast? = some d := by rw [hfl, hr2l]
  have hdmem : d ∈ f := List.mem_of_getLast?_eq_some hfl2
  have hstrip : pyStrip f ≠ [] := pyStrip_ne_nil hdmem hdns
  intro hcontra
  rw [sentences] at hcontra
  have hnone := List.filterMap_eq_nil_iff.mp hcontra f hf
  rw [if_neg hstrip] at hnone
  cases hnone

/-- Every chunk emitted by the packing loop is the space-join of a
non-empty group of strings taken from the accumulator or the input. -/
theorem packLoop_mem (size : ℕ) :
    ∀ (l cur : List Str) (curLen : ℕ) (c : Str), c ∈ packLoop size cur curLen l →
      ∃ g, g ≠ [] ∧ (∀ x ∈ g, x ∈ cur ∨ x ∈ l) ∧ c = joinSp g := by
  intro l
  induction l with
  | nil =>
    intro cur curLen c hc
    rw [packLoop] at hc
    by_cases h : cur = []
    · rw [if_pos h] at hc; simp at hc
    · rw [if_neg h] at hc
      simp only [List.mem_singleton] at hc
      exact ⟨cur, h, fun x hx => Or.inl hx, hc⟩
  | cons s rest ih =>
    intro cur curLen c hc
    rw [packLoop] at hc
    split at hc
    · rename_i hcond
      rcases List.mem_cons.mp hc with rfl | hc
      · exact ⟨cur, hcond.2, fun x hx => Or.inl hx, rfl⟩
      · obtain ⟨g, hg, hmem, rfl⟩ := ih [s] s.length c hc
        refine ⟨g, hg, fun x hx => (hmem x hx).elim ?_ ?_, rfl⟩
        · intro hx1
          simp only [List.mem_singleton] at hx1
          exact Or.inr (by simp [hx1])
        · intro hx2
          exact Or.inr (by simp [hx2])
    · obtain ⟨g, hg, hmem, rfl⟩ := ih (cur ++ [s]) (curLen + s.length + 1) c hc
      refine ⟨g, hg, fun x hx => (hmem x hx).elim ?_ ?_, rfl⟩
      · intro hx1
        rcases List.mem_append.mp hx1 with hx | hx
        · exact Or.inl hx
        · simp only [List.mem_singleton] at hx
          exact Or.inr (by simp [hx])
      · intro hx2
        exact Or.inr (by simp [hx2])

/-- The packing loop emits at least one chunk unless both the
accumulator and the input are empty. -/
theorem packLoop_ne_nil (size : ℕ) :
    ∀ (l cur : List Str) (curLen : ℕ), cur ≠ [] ∨ l ≠ [] →
      packLoop size cur curLen l ≠ [] := by
  intro l
  induction l with
  | nil =>
    intro cur curLen h
    rcases h with h | h
    · rw [packLoop, if_neg h]; simp
    · exact absurd rfl h
  | cons s rest ih =>
    intro cur curLen h
    rw [packLoop]
    split
    · simp
    · exact ih (cur ++ [s]) _ (Or.inl (by simp))

/-- Claim C6: `chunk_text` returns the empty sequence exactly for
empty/whitespace-only input, and never emits an empty chunk. -/
theorem c6_chunk_text_empty_iff_whitespace (text : Str) (size : ℕ) :
    (chunk_text text size = [] ↔ ∀ c ∈ text, pyIsSpace c = true) ∧
      ∀ c ∈ chunk_text text size, c ≠ [] := by
  constructor
  · constructor
    · intro h
      by_contra hws
      push_neg at hws
      obtain ⟨c, hc, hcf⟩ := hws
      have hne : sentences text ≠ [] := sentences_ne_nil text ⟨c, hc, by simpa using hcf⟩
      exact packLoop_ne_nil size (sentences text) [] 0 (Or.inr hne) h
    · intro h
      rw [chunk_text, sentences_of_all_space text h]
      rfl
  · intro c hc
    obtain ⟨g, hg, hmem, rfl⟩ := packLoop_mem size (sentences text) [] 0 c hc
    refine joinSp_ne_nil g hg ?_
    intro x hx
    rcases hmem x hx with hx1 | hx2
    · simp at hx1
    · exact (sentences_props text x hx2).1

/-- Witness for C6 at `"x"` (budget 400): one non-empty chunk, and the
emptiness equivalence. -/
theorem c6_chunk_text_empty_iff_whitespace_witness :
    (chunk_text "x".toList 400 = [] ↔ ∀ c ∈ "x".toList, pyIsSpace c = true) ∧
      "x.".toList ≠ [] :=
  ⟨(c6_chunk_text_empty_iff_whitespace "x".toList 400).1,
    (c6_chunk_text_empty_iff_whitespace "x".toList 400).2 "x.".toList (by decide)⟩

/-- Claim C9: every chunk `chunk_text` returns ends with `.`, `!` or
`?` — the chunk is the join of sentences, each terminator-ended, and
its last character is the last sentence's last character. -/
theorem c9_chunks_sentence_terminated (text : Str) (size : ℕ) :
    ∀ c ∈ chunk_text text size, endsTerm c = true := by
  intro c hc
  obtain ⟨g, hg, hmem, rfl⟩ := packLoop_mem size (sentences text) [] 0 c hc
  have hsent : ∀ x ∈ g, x ∈ sentences text := by
    intro x hx
    rcases hmem x hx with hx1 | hx2
    · simp at hx1
    · exact hx2
  have hne : ∀ x ∈ g, x ≠ [] := fun x hx => (sentences_props text x (hsent x hx)).1
  obtain ⟨w, hw1, hw2⟩ := joinSp_getLast? g hg hne
  have hwmem : w ∈ g := List.mem_of_getLast?_eq_some hw1
  have hterm : endsTerm w = true := (sentences_props text w (hsent w hwmem)).2
  cases hwl : w.getLast? with
  | none => rw [endsTerm, hwl] at hterm; cases hterm
  | some ch =>
    rw [endsTerm, hwl] at hterm
    rw [endsTerm, hw2, hwl]
    exact hterm

/-- Witness for C9: the chunk `"hi."` produced from `"hi"` ends in a
terminator. -/
theorem c9_chunks_sentence_terminated_witness : endsTerm "hi.".toList = true :=
  c9_chunks_sentence_terminated "hi".toList 400 "hi.".toList (by decide)
